import Mathlib

/-!
Verification of the core of a UTXO blockchain engine (blocks, transactions,
binary codec, merkle roots, validation, mining worker) against its
natural-language specification.

Bytes are modelled as `List Nat` with values below 256; machine integers are
`Nat`/`Int` with explicit reduction modulo powers of two where the source
performs fixed-width packing.  SHA-256 is implemented concretely so that the
hashing behaviour of block and transaction identifiers is executable.
-/

set_option maxRecDepth 100000
set_option maxHeartbeats 3000000

namespace Chain

/-! ## Byte primitives (big-endian packing, as in struct.pack of the source) -/

/-- Big-endian byte encoding of a natural number into exactly `n` bytes,
reduced modulo `256 ^ n` (the source raises on overflow; well-formedness
hypotheses keep the values in range wherever a claim depends on it). -/
def beBytes : Nat → Nat → List Nat
  | 0, _ => []
  | n + 1, v => beBytes n (v / 256) ++ [v % 256]

/-- Big-endian interpretation of a byte list as a natural number. -/
def beNat (l : List Nat) : Nat :=
  l.foldl (fun a b => a * 256 + b) 0

theorem beBytes_length (n v : Nat) : (beBytes n v).length = n := by
  induction n generalizing v with
  | zero => rfl
  | succ n ih => simp [beBytes, ih]

theorem beNat_foldl (a : Nat) (l : List Nat) :
    l.foldl (fun x b => x * 256 + b) a = a * 256 ^ l.length + beNat l := by
  induction l generalizing a with
  | nil => simp [beNat]
  | cons b t ih =>
    have hbt : beNat (b :: t) = b * 256 ^ t.length + beNat t := by
      have : beNat (b :: t) = t.foldl (fun x b => x * 256 + b) b := by
        simp [beNat]
      rw [this, ih b]
    simp only [List.foldl_cons, List.length_cons]
    rw [ih, hbt]
    ring

theorem beNat_append (l₁ l₂ : List Nat) :
    beNat (l₁ ++ l₂) = beNat l₁ * 256 ^ l₂.length + beNat l₂ := by
  have : beNat (l₁ ++ l₂) = l₂.foldl (fun x b => x * 256 + b) (beNat l₁) := by
    simp [beNat, List.foldl_append]
  rw [this, beNat_foldl]

theorem beNat_beBytes (n v : Nat) : beNat (beBytes n v) = v % 256 ^ n := by
  induction n generalizing v with
  | zero => simp [beBytes, beNat, Nat.mod_one]
  | succ n ih =>
    rw [beBytes, beNat_append, ih]
    have hb : beNat [v % 256] = v % 256 := by simp [beNat]
    simp only [hb, List.length_cons, List.length_nil]
    have h256 : (256 : Nat) ^ (n + 1) = 256 * 256 ^ n := by ring
    rw [h256, Nat.mod_mul]
    ring

theorem beBytes_lt (n v : Nat) : ∀ b ∈ beBytes n v, b < 256 := by
  induction n generalizing v with
  | zero => simp [beBytes]
  | succ n ih =>
    intro b hb
    simp only [beBytes, List.mem_append, List.mem_singleton] at hb
    rcases hb with h | h
    · exact ih _ b h
    · omega

/-- Pack a u16 as two big-endian bytes (struct.pack in the source), used for
array lengths and output indices. -/
def pack16 (v : Nat) : List Nat := beBytes 2 v

/-- Unpack a u16 from two big-endian bytes. -/
def unpack16 (l : List Nat) : Nat := beNat l

theorem unpack16_pack16 {v : Nat} (h : v < 65536) : unpack16 (pack16 v) = v := by
  have := beNat_beBytes 2 v
  simpa [pack16, unpack16, Nat.mod_eq_of_lt h] using this

/-- Pack an i64 as eight big-endian bytes, two's complement. -/
def packI64 (v : Int) : List Nat := beBytes 8 (v % (2 ^ 64)).toNat

/-- Unpack an i64 from 8 big-endian bytes, two's complement. -/
def unpackI64 (l : List Nat) : Int :=
  let n := beNat l
  if n < 2 ^ 63 then (n : Int) else (n : Int) - 2 ^ 64

theorem packI64_length (v : Int) : (packI64 v).length = 8 := beBytes_length 8 _

theorem unpackI64_packI64 {v : Int} (h₁ : -(2 ^ 63) ≤ v) (h₂ : v < 2 ^ 63) :
    unpackI64 (packI64 v) = v := by
  unfold unpackI64 packI64
  rw [beNat_beBytes]
  have hmod : v % (2 ^ 64) = if 0 ≤ v then v else v + 2 ^ 64 := by
    split
    · exact Int.emod_eq_of_lt (by assumption) (by omega)
    · omega
  split at hmod
  · have hv : (v % (2 ^ 64)).toNat = v.toNat := by omega
    rw [hv]
    have hlt : v.toNat < 256 ^ 8 := by
      have : (256 : Nat) ^ 8 = 2 ^ 64 := by norm_num
      omega
    rw [Nat.mod_eq_of_lt hlt]
    have hsm : v.toNat < 2 ^ 63 := by omega
    simp only [hsm, if_pos]
    omega
  · have hv : (v % (2 ^ 64)).toNat = (v + 2 ^ 64).toNat := by omega
    rw [hv]
    have hlt : (v + 2 ^ 64).toNat < 256 ^ 8 := by
      have : (256 : Nat) ^ 8 = 2 ^ 64 := by norm_num
      omega
    rw [Nat.mod_eq_of_lt hlt]
    have hge : ¬ (v + 2 ^ 64).toNat < 2 ^ 63 := by omega
    simp only [hge, if_neg, if_false]
    omega

/-! ## SHA-256 (executable, over byte lists) -/

/-- The sixty-four SHA-256 round constants. -/
def shaK : List Nat :=
  [1116352408, 1899447441, 3049323471, 3921009573, 961987163, 1508970993,
   2453635748, 2870763221, 3624381080, 310598401, 607225278, 1426881987,
   1925078388, 2162078206, 2614888103, 3248222580, 3835390401, 4022224774,
   264347078, 604807628, 770255983, 1249150122, 1555081692, 1996064986,
   2554220882, 2821834349, 2952996808, 3210313671, 3336571891, 3584528711,
   113926993, 338241895, 666307205, 773529912, 1294757372, 1396182291,
   1695183700, 1986661051, 2177026350, 2456956037, 2730485921, 2820302411,
   3259730800, 3345764771, 3516065817, 3600352804, 4094571909, 275423344,
   430227734, 506948616, 659060556, 883997877, 958139571, 1322822218,
   1537002063, 1747873779, 1955562222, 2024104815, 2227730452, 2361852424,
   2428436474, 2756734187, 3204031479, 3329325298]

/-- Right rotation of a 32-bit word. -/
def rotr32 (n x : Nat) : Nat :=
  ((x >>> n) ||| (x <<< (32 - n))) % 4294967296

def shaSsig0 (x : Nat) : Nat := (rotr32 7 x) ^^^ (rotr32 18 x) ^^^ (x >>> 3)

def shaSsig1 (x : Nat) : Nat := (rotr32 17 x) ^^^ (rotr32 19 x) ^^^ (x >>> 10)

def shaBsig0 (x : Nat) : Nat := (rotr32 2 x) ^^^ (rotr32 13 x) ^^^ (rotr32 22 x)

def shaBsig1 (x : Nat) : Nat := (rotr32 6 x) ^^^ (rotr32 11 x) ^^^ (rotr32 25 x)

def shaCh (x y z : Nat) : Nat := (x &&& y) ^^^ ((x ^^^ 4294967295) &&& z)

def shaMaj (x y z : Nat) : Nat := (x &&& y) ^^^ (x &&& z) ^^^ (y &&& z)

/-- The eight-word SHA-256 chaining state. -/
structure ShaState where
  s0 : Nat
  s1 : Nat
  s2 : Nat
  s3 : Nat
  s4 : Nat
  s5 : Nat
  s6 : Nat
  s7 : Nat
deriving DecidableEq, Repr

def shaInit : ShaState :=
  ⟨1779033703, 3144134277, 1013904242, 2773480762,
   1359893119, 2600822924, 528734635, 1541459225⟩

/-- Extension step of the message schedule, over the list of already
scheduled words held newest first, so each step reads the words two, seven,
fifteen and sixteen positions back near the head of the list. -/
def shaSchedule (w : List Nat) : Nat → List Nat
  | 0 => w
  | fuel + 1 =>
    let nw := (shaSsig1 (w.getD 1 0) + w.getD 6 0 +
               shaSsig0 (w.getD 14 0) + w.getD 15 0) % 4294967296
    shaSchedule (nw :: w) fuel

/-- One round of the SHA-256 compression loop. -/
def shaRound (st : ShaState) (kw : Nat × Nat) : ShaState :=
  let t1 := (st.s7 + shaBsig1 st.s4 + shaCh st.s4 st.s5 st.s6 + kw.1 + kw.2) % 4294967296
  let t2 := (shaBsig0 st.s0 + shaMaj st.s0 st.s1 st.s2) % 4294967296
  ⟨(t1 + t2) % 4294967296, st.s0, st.s1, st.s2,
   (st.s3 + t1) % 4294967296, st.s4, st.s5, st.s6⟩

/-- Compress one 64-byte block into the chaining state. -/
def shaCompress (st : ShaState) (block : List Nat) : ShaState :=
  let words16 := (List.range 16).map (fun i => beNat ((block.drop (4 * i)).take 4))
  let w := (shaSchedule words16.reverse 48).reverse
  let r := (shaK.zip w).foldl shaRound st
  ⟨(st.s0 + r.s0) % 4294967296, (st.s1 + r.s1) % 4294967296,
   (st.s2 + r.s2) % 4294967296, (st.s3 + r.s3) % 4294967296,
   (st.s4 + r.s4) % 4294967296, (st.s5 + r.s5) % 4294967296,
   (st.s6 + r.s6) % 4294967296, (st.s7 + r.s7) % 4294967296⟩

/-- Padding of a SHA-256 message: append 0x80, zeros, and the 64-bit bit length. -/
def shaPad (msg : List Nat) : List Nat :=
  let padLen := (64 - (msg.length + 9) % 64) % 64
  msg ++ [128] ++ List.replicate padLen 0 ++ beBytes 8 (8 * msg.length)

/-- Split a byte list into 64-byte chunks (fuel-based structural recursion so
that the kernel can evaluate it; the fuel always suffices). -/
def chunks64Go : Nat → List Nat → List (List Nat)
  | 0, _ => []
  | fuel + 1, l => if l = [] then [] else l.take 64 :: chunks64Go fuel (l.drop 64)

/-- Split a byte list into 64-byte chunks. -/
def chunks64 (l : List Nat) : List (List Nat) :=
  chunks64Go l.length l

/-- Digest (32 bytes) produced by SHA-256 for a byte message. -/
def sha256 (msg : List Nat) : List Nat :=
  let st := (chunks64 (shaPad msg)).foldl shaCompress shaInit
  beBytes 4 st.s0 ++ beBytes 4 st.s1 ++ beBytes 4 st.s2 ++ beBytes 4 st.s3 ++
  beBytes 4 st.s4 ++ beBytes 4 st.s5 ++ beBytes 4 st.s6 ++ beBytes 4 st.s7

theorem sha256_length (msg : List Nat) : (sha256 msg).length = 32 := by
  simp [sha256, beBytes_length]

/-! ## Error kinds

The Python source signals failures with distinct exception classes; the
model records the class of the exception that escapes.  `invalidEncoding`
is ValueError (raised directly, or converted from struct.error by the
safe-load scope), `invalidArgument` is AssertionError (a failed assert in a
constructor or decoder), `notFound` is FileNotFoundError (wallet registry
miss), `keyError` and `indexError` are the corresponding lookup errors. -/

inductive Err where
  | invalidEncoding
  | invalidArgument
  | notFound
  | keyError
  | indexError
deriving DecidableEq, Repr

/-! ## Association lists with Python dict semantics

Python dicts preserve insertion order; assigning to an existing key updates
the value in place (keeping the key's position), assigning a fresh key
appends.  Deletion removes the entry.  Keys here compare structurally,
which coincides with the canonical-bytes equality the source's __hash__ and
__eq__ implement on well-formed entities. -/

def dictInsert {α β : Type} [DecidableEq α] (k : α) (v : β) :
    List (α × β) → List (α × β)
  | [] => [(k, v)]
  | kv :: rest =>
    if kv.1 = k then (kv.1, v) :: rest else kv :: dictInsert k v rest

def dictLookup {α β : Type} [DecidableEq α] (k : α) :
    List (α × β) → Option β
  | [] => none
  | kv :: rest => if kv.1 = k then some kv.2 else dictLookup k rest

def dictDelete {α β : Type} [DecidableEq α] (k : α) :
    List (α × β) → List (α × β)
  | [] => []
  | kv :: rest => if kv.1 = k then dictDelete k rest else kv :: dictDelete k rest

theorem dictLookup_delete {α β : Type} [DecidableEq α] (k : α) (m : List (α × β)) :
    dictLookup k (dictDelete k m) = none := by
  induction m with
  | nil => rfl
  | cons kv rest ih =>
    by_cases h : kv.1 = k
    · simpa [dictDelete, h] using ih
    · simpa [dictDelete, dictLookup, h] using ih

theorem dictLookup_delete_ne {α β : Type} [DecidableEq α] (k k' : α) (m : List (α × β))
    (h : k' ≠ k) : dictLookup k' (dictDelete k m) = dictLookup k' m := by
  induction m with
  | nil => rfl
  | cons kv rest ih =>
    by_cases hk : kv.1 = k
    · have hne : kv.1 ≠ k' := by rw [hk]; exact Ne.symm h
      simp [dictDelete, dictLookup, hk, hne, ih, Ne.symm h]
    · by_cases hk' : kv.1 = k'
      · simp [dictDelete, dictLookup, hk, hk', h]
      · simp [dictDelete, dictLookup, hk, hk', ih]

theorem dictLookup_insert_ne {α β : Type} [DecidableEq α] (k k' : α) (v : β)
    (m : List (α × β)) (h : k' ≠ k) :
    dictLookup k' (dictInsert k v m) = dictLookup k' m := by
  induction m with
  | nil => simp [dictInsert, dictLookup, Ne.symm h]
  | cons kv rest ih =>
    by_cases hk : kv.1 = k
    · simp [dictInsert, dictLookup, hk, Ne.symm h]
    · by_cases hk' : kv.1 = k'
      · simp [dictInsert, dictLookup, hk, hk', h]
      · simp [dictInsert, dictLookup, hk, hk', ih]

/-! ## IEEE-754 binary32 amounts

Output amounts are Python floats serialized by struct.pack to four bytes of
IEEE-754 binary32.  The model stores an amount as its binary32 bit pattern
(a natural number below two to the 32), which is its canonical serialized
form; the exact rational value of a finite pattern is what the validation
arithmetic uses.  Infinities and NaN payloads are given value zero here: no
claim exercises them, and every amount appearing in the claims is exactly
representable. -/

def f32Sign (bits : Nat) : Nat := bits / 2 ^ 31 % 2

def f32Exp (bits : Nat) : Nat := bits / 2 ^ 23 % 2 ^ 8

def f32Frac (bits : Nat) : Nat := bits % 2 ^ 23

/-- Truth of the Python comparison amount greater than zero on a binary32
pattern: positive sign and nonzero magnitude, excluding NaN. -/
def f32IsPositive (bits : Nat) : Bool :=
  f32Sign bits = 0 && (f32Exp bits ≠ 0 || f32Frac bits ≠ 0) &&
    !(f32Exp bits = 255 && f32Frac bits ≠ 0)

/-- Exact value of a finite binary32 pattern, scaled by two to the 149 (every
finite binary32 number is an integer multiple of that smallest subnormal, so
the scaled values are integers and sums and comparisons of amounts are
exact). -/
def f32Value (bits : Nat) : Int :=
  let sgn : Int := if f32Sign bits = 0 then 1 else -1
  if f32Exp bits = 255 then 0
  else if f32Exp bits = 0 then sgn * (f32Frac bits : Int)
  else sgn * ((2 ^ 23 + (f32Frac bits : Int)) * 2 ^ (f32Exp bits - 1))

/-- Bit pattern of the binary32 number ten, the fixed coinbase reward. -/
def bitsTen : Nat := 1092616192

/-! ## Entity model

Faithful to the classes in src/core: outpoints, inputs, outputs,
signatures, transactions (with a coinbase tag mirroring the
CoinbaseTransaction subclass) and blocks (a genesis block is a block whose
previous pointer is absent, mirroring the GenesisBlock subclass).  A wallet
is represented by its canonical 526-byte public serialization, which is
what equality, hashing and addresses are derived from in the source. -/

structure TransactionOutpoint where
  transaction_id : List Nat
  output_index : Nat
deriving DecidableEq, Repr

structure TransactionInput where
  outpoint : TransactionOutpoint
deriving DecidableEq, Repr

structure TransactionOutput where
  address : List Nat
  amount : Nat
deriving DecidableEq, Repr

structure TransactionSignature where
  wallet : List Nat
  signature : List Nat
deriving DecidableEq, Repr

structure Transaction where
  isCoinbase : Bool
  timestamp : Int
  inputs : List TransactionInput
  outputs : List TransactionOutput
  signatures : List TransactionSignature
deriving DecidableEq, Repr

inductive Block where
  | mk (previous_block : Option Block) (transactions : List Transaction)
       (timestamp : Int) (nonce : Int)

def Block.previous_block : Block → Option Block
  | .mk p _ _ _ => p

def Block.transactions : Block → List Transaction
  | .mk _ t _ _ => t

def Block.timestamp : Block → Int
  | .mk _ _ ts _ => ts

def Block.nonce : Block → Int
  | .mk _ _ _ n => n

/-- Address of a wallet: the first eight bytes of the SHA-256 digest of its
canonical public serialization. -/
def walletAddress (w : List Nat) : List Nat :=
  (sha256 w).take 8

/-! ## Canonical serialization (the __bytes__ methods) -/

def TransactionOutpoint.toBytes (o : TransactionOutpoint) : List Nat :=
  o.transaction_id ++ pack16 o.output_index

def TransactionInput.toBytes (i : TransactionInput) : List Nat :=
  i.outpoint.toBytes

def TransactionOutput.toBytes (o : TransactionOutput) : List Nat :=
  o.address ++ beBytes 4 o.amount

def TransactionSignature.toBytes (s : TransactionSignature) : List Nat :=
  s.wallet ++ s.signature

/-- Length-prefixed array serialization (BytesHelper.from_array). -/
def from_array {α : Type} (enc : α → List Nat) (l : List α) : List Nat :=
  pack16 l.length ++ (l.map enc).flatten

def Transaction.toBytes (t : Transaction) : List Nat :=
  packI64 t.timestamp ++
  from_array TransactionInput.toBytes t.inputs ++
  from_array TransactionOutput.toBytes t.outputs ++
  from_array TransactionSignature.toBytes t.signatures

/-- Identifier of a transaction: SHA-256 of its serialization. -/
def Transaction.id (t : Transaction) : List Nat :=
  sha256 t.toBytes

/-! ## Merkle root

Both merkle implementations of the source (core/bytetools/merkle.py and
core/helpers/hash.py) run the same level loop: while more than one branch
remains, pad an odd level with one empty byte string and hash consecutive
pairs with SHA-256.  The loop is modelled with fuel equal to the initial
level width, which always dominates the number of iterations. -/

/-- Hash of consecutive branch pairs; a trailing unpaired branch is dropped,
exactly as the source's zip of even and odd slices does. -/
def hashPairs : List (List Nat) → List (List Nat)
  | a :: b :: rest => sha256 (a ++ b) :: hashPairs rest
  | _ => []

/-- One padding step: append one empty byte string when the level is odd. -/
def padEven (branches : List (List Nat)) : List (List Nat) :=
  if branches.length % 2 ≠ 0 then branches ++ [[]] else branches

def merkleLoop : Nat → List (List Nat) → List (List Nat)
  | 0, branches => branches
  | fuel + 1, branches =>
    if 1 < branches.length then merkleLoop fuel (hashPairs (padEven branches))
    else branches

namespace bytetools

/-- Merkle root per core/bytetools/merkle.py: asserts a non-empty leaf list
(AssertionError otherwise), then runs the level loop and returns the single
remaining branch. -/
def calculate_merkle_root (leaves : List (List Nat)) : Except Err (List Nat) :=
  if 0 < leaves.length then .ok ((merkleLoop leaves.length leaves).headD [])
  else .error .invalidArgument

end bytetools

namespace HashHelper

/-- Merkle root per core/helpers/hash.py.  The source's length assertion is
vacuous (it tests length at least zero), and indexing the empty result of an
empty input would raise IndexError; the model returns the empty byte string
there, a case no verified statement exercises (every block in the claims has
at least one transaction). -/
def calculate_merkle_root (leaves : List (List Nat)) : List Nat :=
  (merkleLoop leaves.length leaves).headD []

end HashHelper

/-- Merkle root of the identifiers of a transaction sequence
(Transaction.calculate_merkle_root in the source). -/
def Transaction.calculate_merkle_root (transactions : List Transaction) : List Nat :=
  HashHelper.calculate_merkle_root (transactions.map Transaction.id)

/-! ## Block header, identifier and serialization -/

/-- Serialized block header: previous block id (32 zero bytes for a genesis
block), merkle root of the transaction ids, timestamp and nonce.  The
recursion through the previous pointer inlines Block.id of the predecessor. -/
def Block.block_header : Block → List Nat
  | .mk none txs ts n =>
    List.replicate 32 0 ++ Transaction.calculate_merkle_root txs ++
    packI64 ts ++ packI64 n
  | .mk (some p) txs ts n =>
    sha256 (Block.block_header p) ++ Transaction.calculate_merkle_root txs ++
    packI64 ts ++ packI64 n

/-- Identifier of a block: SHA-256 of its header. -/
def Block.id (b : Block) : List Nat := sha256 b.block_header

def Block.toBytes (b : Block) : List Nat :=
  b.block_header ++ from_array Transaction.toBytes b.transactions

/-! ## Decoders (the from_bytes classmethods)

Decoders thread the unread remainder and return it with the decoded entity.
The wallet registry (the data/wallets directory of the source) is passed
explicitly: decoding a signature loads the wallet whose address is the hash
of the embedded script, failing with FileNotFoundError when absent. -/

/-- Wallet registry: maps an 8-byte address to the canonical public bytes of
the stored wallet, if any. -/
def Registry : Type := List Nat → Option (List Nat)

/-- Registry with no stored wallets. -/
def emptyRegistry : Registry := fun _ => none

/-- Safe raw read (BytesHelper.load_raw_data): ValueError when the buffer is
shorter than the requested size, AssertionError when the size is not
positive. -/
def load_raw_data (b : List Nat) (size : Nat) : Except Err (List Nat × List Nat) :=
  if size = 0 then .error .invalidArgument
  else if b.length < size then .error .invalidEncoding
  else .ok (b.drop size, b.take size)

def toArrayGo {α : Type} (dec : List Nat → Except Err (List Nat × α)) :
    Nat → List Nat → Except Err (List Nat × List α)
  | 0, b => .ok (b, [])
  | n + 1, b => do
    let (b', x) ← dec b
    let (b'', xs) ← toArrayGo dec n b'
    .ok (b'', x :: xs)

/-- Length-prefixed array decoding (BytesHelper.to_array): read a u16 count
(ValueError when even the prefix is missing), then decode that many items. -/
def to_array {α : Type} (dec : List Nat → Except Err (List Nat × α))
    (b : List Nat) : Except Err (List Nat × List α) :=
  if b.length < 2 then .error .invalidEncoding
  else toArrayGo dec (unpack16 (b.take 2)) (b.drop 2)

def TransactionOutpoint.from_bytes (b : List Nat) :
    Except Err (List Nat × TransactionOutpoint) := do
  let (b, tid) ← load_raw_data b 32
  if b.length < 2 then .error .invalidEncoding
  else .ok (b.drop 2, ⟨tid, unpack16 (b.take 2)⟩)

def TransactionInput.from_bytes (b : List Nat) :
    Except Err (List Nat × TransactionInput) := do
  let (b, o) ← TransactionOutpoint.from_bytes b
  .ok (b, ⟨o⟩)

def TransactionOutput.from_bytes (b : List Nat) :
    Except Err (List Nat × TransactionOutput) := do
  let (b, addr) ← load_raw_data b 8
  if b.length < 4 then .error .invalidEncoding
  else
    let bits := beNat (b.take 4)
    if f32IsPositive bits then .ok (b.drop 4, ⟨addr, bits⟩)
    else .error .invalidArgument

/-- Signature decoding.  The source guards the buffer length with an assert
(AssertionError, not ValueError), splits off 526 script bytes and 32
signature bytes, and loads the wallet for the script's address from the
registry. -/
def TransactionSignature.from_bytes (reg : Registry) (b : List Nat) :
    Except Err (List Nat × TransactionSignature) :=
  if b.length < 558 then .error .invalidArgument
  else
    let script := b.take 526
    let rest := b.drop 526
    match reg (walletAddress script) with
    | none => .error .notFound
    | some w => .ok (rest.drop 32, ⟨w, rest.take 32⟩)

/-- Transaction decoding: timestamp, inputs, outputs, signatures; an empty
input list yields a CoinbaseTransaction rebuilt from the first parsed
output's address (IndexError when there is none), anything else a regular
transaction. -/
def Transaction.from_bytes (reg : Registry) (b : List Nat) :
    Except Err (List Nat × Transaction) := do
  if b.length < 8 then .error .invalidEncoding
  else
    let ts := unpackI64 (b.take 8)
    let (b1, inputs) ← to_array TransactionInput.from_bytes (b.drop 8)
    let (b2, outputs) ← to_array TransactionOutput.from_bytes b1
    let (b3, sigs) ← to_array (TransactionSignature.from_bytes reg) b2
    match inputs with
    | [] =>
      match outputs with
      | [] => .error .indexError
      | o :: _ =>
        if o.address.length = 8 then
          .ok (b3, ⟨true, ts, [], [⟨o.address, bitsTen⟩], sigs⟩)
        else .error .invalidArgument
    | _ :: _ => .ok (b3, ⟨false, ts, inputs, outputs, sigs⟩)

/-- Number of coinbase transactions in a sequence. -/
def countCoinbase (txs : List Transaction) : Nat :=
  (txs.filter (fun t => t.isCoinbase)).length

/-- Checked block construction (Block.__init__): at most one coinbase
transaction, AssertionError otherwise.  The source initializes timestamp
from the clock and nonce to zero and lets the decoder overwrite both; the
model receives the final values directly. -/
def Block.mkChecked (prev : Option Block) (txs : List Transaction) (ts n : Int) :
    Except Err Block :=
  if countCoinbase txs ≤ 1 then .ok (.mk prev txs ts n) else .error .invalidArgument

/-- Block decoding on top of a given previous block (Block.from_bytes):
previous-id check, merkle-root check, then checked construction. -/
def Block.from_bytes (reg : Registry) (b : List Nat) (previous_block : Block) :
    Except Err (List Nat × Block) := do
  let (b, pid) ← load_raw_data b 32
  if pid ≠ previous_block.id then .error .invalidEncoding
  else do
    let (b, root) ← load_raw_data b 32
    if b.length < 8 then .error .invalidEncoding
    else
      let ts := unpackI64 (b.take 8)
      let b := b.drop 8
      if b.length < 8 then .error .invalidEncoding
      else
        let n := unpackI64 (b.take 8)
        let b := b.drop 8
        do
          let (b, txs) ← to_array (Transaction.from_bytes reg) b
          if root ≠ Transaction.calculate_merkle_root txs then .error .invalidEncoding
          else do
            let blk ← Block.mkChecked (some previous_block) txs ts n
            .ok (b, blk)

namespace GenesisBlock

/-- Genesis block decoding (GenesisBlock.from_bytes): the embedded previous
id must be 32 zero bytes. -/
def from_bytes (reg : Registry) (b : List Nat) :
    Except Err (List Nat × Block) := do
  let (b, pid) ← load_raw_data b 32
  if pid ≠ List.replicate 32 0 then .error .invalidEncoding
  else do
    let (b, root) ← load_raw_data b 32
    if b.length < 8 then .error .invalidEncoding
    else
      let ts := unpackI64 (b.take 8)
      let b := b.drop 8
      if b.length < 8 then .error .invalidEncoding
      else
        let n := unpackI64 (b.take 8)
        let b := b.drop 8
        do
          let (b, txs) ← to_array (Transaction.from_bytes reg) b
          if root ≠ Transaction.calculate_merkle_root txs then .error .invalidEncoding
          else do
            let blk ← Block.mkChecked none txs ts n
            .ok (b, blk)

/-- Chain-decoding loop: keep appending decoded blocks while bytes remain.
The fuel equals the remaining byte count; every successful block decode
consumes bytes, so the fuel is never exhausted on a decodable stream. -/
def from_bytes_chain_go (reg : Registry) :
    Nat → List Nat → Block → Except Err Block
  | _, [], blk => .ok blk
  | 0, _ :: _, _ => .error .invalidEncoding
  | fuel + 1, b, blk => do
    let (b', blk') ← Block.from_bytes reg b blk
    from_bytes_chain_go reg fuel b' blk'

/-- Whole-chain decoding (GenesisBlock.from_bytes_chain): a genesis block
followed by blocks chained onto the running tip until the buffer is empty. -/
def from_bytes_chain (reg : Registry) (b : List Nat) : Except Err Block := do
  let (b, blk) ← from_bytes reg b
  from_bytes_chain_go reg b.length b blk

end GenesisBlock

/-! ## Chain traversal -/

/-- Walk of the predecessor pointers (the while loop of Block.expand_chain):
insert the current block into the id-keyed dict, then continue with its
predecessor. -/
def Block.expandWalk : Block → List (List Nat × Block) → List (List Nat × Block)
  | .mk none txs ts n, acc =>
    dictInsert (Block.id (.mk none txs ts n)) (.mk none txs ts n) acc
  | .mk (some p) txs ts n, acc =>
    Block.expandWalk p
      (dictInsert (Block.id (.mk (some p) txs ts n)) (.mk (some p) txs ts n) acc)

/-- Expansion of the whole chain up to a block, as an id-keyed dict in
genesis-first order (the source builds tip-first and reverses). -/
def Block.expand_chain (b : Block) : List (List Nat × Block) :=
  (Block.expandWalk b []).reverse

/-- Blocks of the expanded chain in genesis-first order. -/
def Block.expand_chain_values (b : Block) : List Block :=
  b.expand_chain.map Prod.snd

/-- All transactions of the chain up to a block, keyed by transaction id in
visit order (later insertions with an equal id replace the stored value). -/
def Block.expand_transactions (b : Block) : List (List Nat × Transaction) :=
  b.expand_chain_values.foldl
    (fun acc blk => blk.transactions.foldl (fun acc t => dictInsert t.id t acc) acc) []

/-- Per-transaction step of the UTXO computation: drop the outpoints the
transaction's inputs reference (deletion of an absent key is suppressed in
the source), then add an outpoint for each of its outputs. -/
def utxoStep (m : List (TransactionOutpoint × TransactionOutput))
    (t : Transaction) : List (TransactionOutpoint × TransactionOutput) :=
  let m1 := t.inputs.foldl (fun m i => dictDelete i.outpoint m) m
  t.outputs.enum.foldl (fun m io => dictInsert ⟨t.id, io.1⟩ io.2 m) m1

/-- The UTXO set up to a block (Block.unspent_outpoints with no address
filter): the per-transaction step folded over all transactions of the
chain in visit order. -/
def Block.unspent_outpoints (b : Block) :
    List (TransactionOutpoint × TransactionOutput) :=
  (b.expand_transactions.map Prod.snd).foldl utxoStep []

/-! ## Validation -/

/-- Lexicographic comparison of byte strings, as Python compares bytes. -/
def bytesLt : List Nat → List Nat → Bool
  | [], [] => false
  | [], _ :: _ => true
  | _ :: _, [] => false
  | x :: xs, y :: ys => if x < y then true else if y < x then false else bytesLt xs ys

/-- The difficulty target: two zero bytes followed by thirty 0xFF bytes. -/
def TARGET : List Nat := List.replicate 2 0 ++ List.replicate 30 255

/-- Proof validity (Block.valid_proof): every inspected block id must be
strictly below the target; shallow mode inspects only this block. -/
def Block.valid_proof (b : Block) (shallow : Bool) : Bool :=
  (if shallow then [b] else b.expand_chain_values).all
    (fun blk => bytesLt blk.id TARGET)

/-- Spending loop of Transaction.valid: look each input's outpoint up in the
unspent map, accumulate the referenced amount and delete the outpoint;
a missing outpoint is the KeyError path that returns an invalid verdict. -/
def consumeInputs (m : List (TransactionOutpoint × TransactionOutput)) :
    List TransactionInput → Int → Option Int
  | [], acc => some acc
  | i :: rest, acc =>
    match dictLookup i.outpoint m with
    | none => none
    | some out => consumeInputs (dictDelete i.outpoint m) rest (acc + f32Value out.amount)

/-- Signature-coverage loop of the private signed check: for each input, the
address owning the referenced output must appear among the signer
addresses.  Missing transaction ids or output indices raise in the source
and are surfaced as error kinds here. -/
def signedLoop (txs : List (List Nat × Transaction)) (signedAddrs : List (List Nat)) :
    List TransactionInput → Except Err Bool
  | [] => .ok true
  | i :: rest =>
    match dictLookup i.outpoint.transaction_id txs with
    | none => .error .keyError
    | some u =>
      match u.outputs.get? i.outpoint.output_index with
      | none => .error .indexError
      | some o =>
        if o.address ∈ signedAddrs then signedLoop txs signedAddrs rest else .ok false

/-- Signature coverage for a transaction against a chain (the source's
underscore-prefixed signed helper on Transaction). -/
def Transaction.signedCheck (t : Transaction) (latest_block : Option Block) :
    Except Err Bool :=
  let txs := match latest_block with
    | some b => b.expand_transactions
    | none => []
  signedLoop txs (t.signatures.map (fun s => walletAddress s.wallet)) t.inputs

/-- Transaction validity against the chain ending at the given block.  The
CoinbaseTransaction subclass overrides this to be unconditionally true; the
model dispatches on the coinbase tag accordingly.  Otherwise: all inputs
spend distinct unspent outpoints, the spent amount does not exceed the
available amount, and (short-circuited after that comparison, as the
Python conjunction evaluates left to right) every input-owning address is
covered by a signature. -/
def Transaction.valid (t : Transaction) (latest_block : Option Block) :
    Except Err Bool :=
  if t.isCoinbase then .ok true
  else
    let m := match latest_block with
      | some b => b.unspent_outpoints
      | none => []
    match consumeInputs m t.inputs 0 with
    | none => .ok false
    | some avail =>
      let spent : Int := t.outputs.foldl (fun acc o => acc + f32Value o.amount) 0
      if avail ≥ spent then t.signedCheck latest_block else .ok false

/-- Scan of one block's transactions (the any-not-valid generator inside
Block.valid_transactions), stopping at the first invalid transaction. -/
def anyInvalid (txs : List Transaction) (prev : Option Block) : Except Err Bool :=
  match txs with
  | [] => .ok false
  | t :: rest => do
    let v ← t.valid prev
    if v then anyInvalid rest prev else .ok true

/-- Per-block transaction check over a block list: validate each block's
transactions against the chain ending at its predecessor. -/
def checkBlocksTx : List Block → Except Err Bool
  | [] => .ok true
  | b :: bs => do
    let bad ← anyInvalid b.transactions b.previous_block
    if bad then .ok false else checkBlocksTx bs

/-- Transaction validity of a block or of the whole chain
(Block.valid_transactions): shallow mode inspects only this block. -/
def Block.valid_transactions (b : Block) (shallow : Bool) : Except Err Bool :=
  checkBlocksTx (if shallow then [b] else b.expand_chain_values)

/-! ## Signing -/

/-- Wallet equality as the source defines it: the other wallet's canonical
bytes equal this wallet's canonical bytes, or equal this wallet's address. -/
def walletEq (self other : List Nat) : Bool :=
  other == self || other == walletAddress self

/-- Appending a signature to a transaction (Transaction.sign): fails with
AssertionError when a signature by an equal wallet is already present. -/
def Transaction.sign (t : Transaction) (signature : TransactionSignature) :
    Except Err Transaction :=
  if t.signatures.any (fun ts => walletEq ts.wallet signature.wallet) then
    .error .invalidArgument
  else .ok { t with signatures := t.signatures ++ [signature] }

/-! ## Mining worker -/

/-- Replacement of a block's nonce (the worker mutates block.nonce). -/
def setNonce (b : Block) (n : Int) : Block :=
  match b with
  | .mk p t ts _ => .mk p t ts n

/-- Ascending scan of the nonce range, returning the first nonce whose block
passes shallow proof validation. -/
def findNonceGo (blk : Block) : Nat → Int → Option Int
  | 0, _ => none
  | fuel + 1, n =>
    if Block.valid_proof (setNonce blk n) true then some n
    else findNonceGo blk fuel (n + 1)

namespace BlockchainHelper

/-- Mining worker (BlockchainHelper's underscore-prefixed nonce-batch
routine): assert a non-empty serialized chain and a non-empty range,
deserialize the chain, and scan nonces from start (inclusive) to the end of
the range (exclusive), returning the first nonce that makes the tip's proof
valid, or none. -/
def process_nonce_batch (reg : Registry) (block_bytes : List Nat)
    (start endExclusive : Int) : Except Err (Option Int) :=
  if block_bytes = [] then .error .invalidArgument
  else if ¬ start < endExclusive then .error .invalidArgument
  else do
    let blk ← GenesisBlock.from_bytes_chain reg block_bytes
    .ok (findNonceGo blk (endExclusive - start).toNat start)

end BlockchainHelper

/-! ## Well-formedness of entities

The constructor assertions of the source restrict what can exist at run
time; serialization additionally requires packed integers to be in range.
These predicates collect exactly those conditions. -/

def WFOutpoint (o : TransactionOutpoint) : Prop :=
  o.transaction_id.length = 32 ∧ o.output_index < 65536

def WFInput (i : TransactionInput) : Prop :=
  WFOutpoint i.outpoint

def WFOutput (o : TransactionOutput) : Prop :=
  o.address.length = 8 ∧ f32IsPositive o.amount = true ∧ o.amount < 2 ^ 32

/-- A signature is well formed for a registry when its wallet bytes have the
canonical public-key length and the registry stores that wallet under its
own address (what Wallet.save produces). -/
def WFSignature (reg : Registry) (s : TransactionSignature) : Prop :=
  s.wallet.length = 526 ∧ s.signature.length = 32 ∧
  reg (walletAddress s.wallet) = some s.wallet

def WFTransaction (reg : Registry) (t : Transaction) : Prop :=
  -(2 ^ 63) ≤ t.timestamp ∧ t.timestamp < 2 ^ 63 ∧
  t.inputs.length < 65536 ∧ t.outputs.length < 65536 ∧ t.signatures.length < 65536 ∧
  (∀ i ∈ t.inputs, WFInput i) ∧ (∀ o ∈ t.outputs, WFOutput o) ∧
  (∀ s ∈ t.signatures, WFSignature reg s) ∧
  (t.isCoinbase = true →
    t.inputs = [] ∧ t.outputs.map TransactionOutput.amount = [bitsTen]) ∧
  (t.isCoinbase = false → t.inputs ≠ [])

def WFBlock (reg : Registry) : Block → Prop
  | .mk _ txs ts n =>
    -(2 ^ 63) ≤ ts ∧ ts < 2 ^ 63 ∧ -(2 ^ 63) ≤ n ∧ n < 2 ^ 63 ∧
    txs ≠ [] ∧ txs.length < 65536 ∧ countCoinbase txs ≤ 1 ∧
    (∀ t ∈ txs, WFTransaction reg t)

instance (o : TransactionOutpoint) : Decidable (WFOutpoint o) := by
  unfold WFOutpoint
  infer_instance

instance (i : TransactionInput) : Decidable (WFInput i) := by
  unfold WFInput WFOutpoint
  infer_instance

instance (o : TransactionOutput) : Decidable (WFOutput o) := by
  unfold WFOutput
  infer_instance

instance (reg : Registry) (s : TransactionSignature) :
    Decidable (WFSignature reg s) := by
  unfold WFSignature
  infer_instance

instance (reg : Registry) (t : Transaction) : Decidable (WFTransaction reg t) := by
  unfold WFTransaction
  infer_instance

instance (reg : Registry) (b : Block) : Decidable (WFBlock reg b) :=
  match b with
  | .mk p txs ts n => by
    unfold WFBlock
    infer_instance

/-! ## Round-trip lemmas for the decoders -/

theorem load_raw_data_rt (x rest : List Nat) (size : Nat) (hs : 0 < size)
    (hx : x.length = size) :
    load_raw_data (x ++ rest) size = .ok (rest, x) := by
  unfold load_raw_data
  have h0 : ¬ size = 0 := by omega
  have h1 : ¬ (x ++ rest).length < size := by
    simp only [List.length_append]
    omega
  simp [h0, h1, List.take_left' hx, List.drop_left' hx]
  omega

theorem outpoint_from_bytes_rt (o : TransactionOutpoint) (rest : List Nat)
    (h : WFOutpoint o) :
    TransactionOutpoint.from_bytes (o.toBytes ++ rest) = .ok (rest, o) := by
  obtain ⟨h32, hidx⟩ := h
  unfold TransactionOutpoint.from_bytes TransactionOutpoint.toBytes
  rw [List.append_assoc,
      load_raw_data_rt o.transaction_id (pack16 o.output_index ++ rest) 32
        (by omega) h32]
  have hp2 : (pack16 o.output_index).length = 2 := beBytes_length 2 _
  have hlen : ¬ (pack16 o.output_index ++ rest).length < 2 := by
    simp only [List.length_append]
    omega
  simp [Bind.bind, Except.bind, hlen, List.take_left' hp2, List.drop_left' hp2,
        unpack16_pack16 hidx]
  omega

theorem input_from_bytes_rt (i : TransactionInput) (rest : List Nat)
    (h : WFInput i) :
    TransactionInput.from_bytes (i.toBytes ++ rest) = .ok (rest, i) := by
  unfold TransactionInput.from_bytes TransactionInput.toBytes
  rw [outpoint_from_bytes_rt i.outpoint rest h]
  simp [Bind.bind, Except.bind]

theorem output_from_bytes_rt (o : TransactionOutput) (rest : List Nat)
    (h : WFOutput o) :
    TransactionOutput.from_bytes (o.toBytes ++ rest) = .ok (rest, o) := by
  obtain ⟨h8, hpos, hlt⟩ := h
  unfold TransactionOutput.from_bytes TransactionOutput.toBytes
  rw [List.append_assoc,
      load_raw_data_rt o.address (beBytes 4 o.amount ++ rest) 8 (by omega) h8]
  have hp4 : (beBytes 4 o.amount).length = 4 := beBytes_length 4 _
  have hlen : ¬ (beBytes 4 o.amount ++ rest).length < 4 := by
    simp only [List.length_append]
    omega
  have hval : beNat (beBytes 4 o.amount) = o.amount := by
    rw [beNat_beBytes]
    exact Nat.mod_eq_of_lt (by norm_num at hlt ⊢; omega)
  simp [Bind.bind, Except.bind, hlen, List.take_left' hp4, List.drop_left' hp4,
        hval, hpos]
  omega

theorem signature_from_bytes_rt (reg : Registry) (s : TransactionSignature)
    (rest : List Nat) (h : WFSignature reg s) :
    TransactionSignature.from_bytes reg (s.toBytes ++ rest) = .ok (rest, s) := by
  obtain ⟨h526, h32, hreg⟩ := h
  unfold TransactionSignature.from_bytes TransactionSignature.toBytes
  have hlen : ¬ ((s.wallet ++ s.signature) ++ rest).length < 558 := by
    simp only [List.length_append]
    omega
  rw [List.append_assoc]
  have htake : (s.wallet ++ (s.signature ++ rest)).take 526 = s.wallet :=
    List.take_left' h526
  have hdrop : (s.wallet ++ (s.signature ++ rest)).drop 526 = s.signature ++ rest :=
    List.drop_left' h526
  simp only [List.append_assoc] at hlen
  simp [hlen, htake, hdrop, hreg, List.take_left' h32, List.drop_left' h32]
  omega

theorem toArrayGo_rt {α : Type} (dec : List Nat → Except Err (List Nat × α))
    (enc : α → List Nat) (items : List α)
    (H : ∀ x ∈ items, ∀ r : List Nat, dec (enc x ++ r) = .ok (r, x)) (rest : List Nat) :
    toArrayGo dec items.length ((items.map enc).flatten ++ rest) = .ok (rest, items) := by
  induction items with
  | nil => simp [toArrayGo]
  | cons x xs ih =>
    have hx := H x (by simp) ((xs.map enc).flatten ++ rest)
    simp only [List.map_cons, List.flatten_cons, List.length_cons, List.append_assoc]
    rw [toArrayGo, hx]
    simp only [Bind.bind, Except.bind]
    rw [ih (fun y hy r => H y (List.mem_cons_of_mem _ hy) r)]

theorem to_array_rt {α : Type} (dec : List Nat → Except Err (List Nat × α))
    (enc : α → List Nat) (items : List α) (hlen : items.length < 65536)
    (H : ∀ x ∈ items, ∀ r : List Nat, dec (enc x ++ r) = .ok (r, x)) (rest : List Nat) :
    to_array dec (from_array enc items ++ rest) = .ok (rest, items) := by
  unfold to_array from_array
  have hp2 : (pack16 items.length).length = 2 := beBytes_length 2 _
  rw [List.append_assoc]
  have hge : ¬ (pack16 items.length ++ ((items.map enc).flatten ++ rest)).length < 2 := by
    simp only [List.length_append]
    omega
  rw [if_neg hge, List.take_left' hp2, List.drop_left' hp2, unpack16_pack16 hlen]
  exact toArrayGo_rt dec enc items H rest

theorem transaction_from_bytes_rt (reg : Registry) (t : Transaction) (rest : List Nat)
    (h : WFTransaction reg t) :
    Transaction.from_bytes reg (t.toBytes ++ rest) = .ok (rest, t) := by
  obtain ⟨tc, tts, tis, tos, tss⟩ := t
  obtain ⟨hts1, hts2, hil, hol, hsl, hins, houts, hsigs, hcb⟩ := h
  simp only at hts1 hts2 hil hol hsl hins houts hsigs hcb
  have hIn : ∀ r : List Nat,
      to_array TransactionInput.from_bytes
        (from_array TransactionInput.toBytes tis ++ r) = .ok (r, tis) :=
    fun r => to_array_rt _ _ _ hil (fun x hx r' => input_from_bytes_rt x r' (hins x hx)) r
  have hOut : ∀ r : List Nat,
      to_array TransactionOutput.from_bytes
        (from_array TransactionOutput.toBytes tos ++ r) = .ok (r, tos) :=
    fun r => to_array_rt _ _ _ hol (fun x hx r' => output_from_bytes_rt x r' (houts x hx)) r
  have hSig : ∀ r : List Nat,
      to_array (TransactionSignature.from_bytes reg)
        (from_array TransactionSignature.toBytes tss ++ r) = .ok (r, tss) :=
    fun r => to_array_rt _ _ _ hsl
      (fun x hx r' => signature_from_bytes_rt reg x r' (hsigs x hx)) r
  unfold Transaction.from_bytes Transaction.toBytes
  have hp8 : (packI64 tts).length = 8 := packI64_length _
  simp only [List.append_assoc]
  have hge : ¬ (packI64 tts ++
      (from_array TransactionInput.toBytes tis ++
        (from_array TransactionOutput.toBytes tos ++
          (from_array TransactionSignature.toBytes tss ++ rest)))).length < 8 := by
    simp only [List.length_append]
    omega
  rw [if_neg hge, List.take_left' hp8, List.drop_left' hp8, unpackI64_packI64 hts1 hts2,
      hIn _]
  simp only [Bind.bind, Except.bind]
  rw [hOut _]
  simp only
  rw [hSig rest]
  simp only
  obtain ⟨hcbT, hcbF⟩ := hcb
  cases tc with
  | true =>
    obtain ⟨hie, hoe⟩ := hcbT rfl
    subst hie
    cases tos with
    | nil => simp at hoe
    | cons o os =>
      simp only [List.map_cons, List.cons.injEq] at hoe
      obtain ⟨hoa, hoe2⟩ := hoe
      have hos : os = [] := by
        cases os with
        | nil => rfl
        | cons _ _ => simp at hoe2
      subst hos
      have h8 : o.address.length = 8 := (houts o (by simp)).1
      simp only [h8, if_pos]
      have : (⟨o.address, bitsTen⟩ : TransactionOutput) = o := by
        cases o
        simp only at hoa
        simp [hoa]
      rw [this]
  | false =>
    have hne := hcbF rfl
    cases tis with
    | nil => exact absurd rfl hne
    | cons i is => simp

theorem hashPairs_length32 : ∀ l : List (List Nat), ∀ y ∈ hashPairs l, y.length = 32
  | [] => by simp [hashPairs]
  | [a] => by simp [hashPairs]
  | a :: b :: rest => by
    intro y hy
    simp only [hashPairs, List.mem_cons] at hy
    rcases hy with h | h
    · rw [h]
      exact sha256_length _
    · exact hashPairs_length32 rest y h

theorem hashPairs_len : ∀ l : List (List Nat), (hashPairs l).length = l.length / 2
  | [] => by simp [hashPairs]
  | [a] => by simp [hashPairs]
  | a :: b :: rest => by
    simp only [hashPairs, List.length_cons, hashPairs_len rest]
    omega

theorem padEven_len (l : List (List Nat)) :
    (padEven l).length = if l.length % 2 ≠ 0 then l.length + 1 else l.length := by
  unfold padEven
  split <;> simp_all

theorem merkleLoop_head_length :
    ∀ (fuel : Nat) (l : List (List Nat)), l ≠ [] → (∀ x ∈ l, x.length = 32) →
      ((merkleLoop fuel l).headD []).length = 32
  | 0, l, hne, h32 => by
    cases l with
    | nil => exact absurd rfl hne
    | cons a t =>
      simpa [merkleLoop] using h32 a (by simp)
  | fuel + 1, l, hne, h32 => by
    rw [merkleLoop]
    by_cases hl : 1 < l.length
    · rw [if_pos hl]
      have hple : (padEven l).length ≥ 2 := by
        rw [padEven_len]
        split <;> omega
      have hlen2 : (hashPairs (padEven l)).length = (padEven l).length / 2 :=
        hashPairs_len _
      have hnem : hashPairs (padEven l) ≠ [] := by
        intro hc
        rw [hc] at hlen2
        simp at hlen2
        omega
      exact merkleLoop_head_length fuel _ hnem (hashPairs_length32 _)
    · rw [if_neg hl]
      cases l with
      | nil => exact absurd rfl hne
      | cons a t => simpa using h32 a (by simp)

theorem merkle_root_length (txs : List Transaction) (h : txs ≠ []) :
    (Transaction.calculate_merkle_root txs).length = 32 := by
  unfold Transaction.calculate_merkle_root HashHelper.calculate_merkle_root
  apply merkleLoop_head_length
  · simpa using h
  · intro x hx
    simp only [List.mem_map] at hx
    obtain ⟨u, _, hu⟩ := hx
    rw [← hu]
    exact sha256_length _

theorem block_from_bytes_rt (reg : Registry) (prev : Block) (txs : List Transaction)
    (ts n : Int) (rest : List Nat)
    (h : WFBlock reg (.mk (some prev) txs ts n)) :
    Block.from_bytes reg ((Block.mk (some prev) txs ts n).toBytes ++ rest) prev =
      .ok (rest, .mk (some prev) txs ts n) := by
  obtain ⟨hts1, hts2, hn1, hn2, hne, hlen, hcc, htx⟩ := h
  have hTx : ∀ r : List Nat,
      to_array (Transaction.from_bytes reg)
        (from_array Transaction.toBytes txs ++ r) = .ok (r, txs) :=
    fun r => to_array_rt _ _ _ hlen
      (fun x hx r' => transaction_from_bytes_rt reg x r' (htx x hx)) r
  unfold Block.from_bytes Block.toBytes Block.block_header
  simp only [Block.transactions, List.append_assoc]
  have hid32 : (sha256 prev.block_header).length = 32 := sha256_length _
  have hmr32 : (Transaction.calculate_merkle_root txs).length = 32 :=
    merkle_root_length txs hne
  have hp8t : (packI64 ts).length = 8 := packI64_length _
  have hp8n : (packI64 n).length = 8 := packI64_length _
  rw [load_raw_data_rt _ _ 32 (by omega) hid32]
  simp only [Bind.bind, Except.bind]
  have hpid : sha256 prev.block_header = prev.id := rfl
  rw [hpid]
  simp only [ne_eq, not_true_eq_false, if_false]
  rw [load_raw_data_rt _ _ 32 (by omega) hmr32]
  simp only
  have hge1 : ¬ (packI64 ts ++ (packI64 n ++
      (from_array Transaction.toBytes txs ++ rest))).length < 8 := by
    simp only [List.length_append]
    omega
  rw [if_neg hge1, List.take_left' hp8t, List.drop_left' hp8t,
      unpackI64_packI64 hts1 hts2]
  have hge2 : ¬ (packI64 n ++
      (from_array Transaction.toBytes txs ++ rest)).length < 8 := by
    simp only [List.length_append]
    omega
  rw [if_neg hge2, List.take_left' hp8n, List.drop_left' hp8n,
      unpackI64_packI64 hn1 hn2, hTx rest]
  simp only [ne_eq, not_true_eq_false, if_false]
  unfold Block.mkChecked
  rw [if_pos hcc]

theorem genesis_from_bytes_rt (reg : Registry) (txs : List Transaction)
    (ts n : Int) (rest : List Nat)
    (h : WFBlock reg (.mk none txs ts n)) :
    GenesisBlock.from_bytes reg ((Block.mk none txs ts n).toBytes ++ rest) =
      .ok (rest, .mk none txs ts n) := by
  obtain ⟨hts1, hts2, hn1, hn2, hne, hlen, hcc, htx⟩ := h
  have hTx : ∀ r : List Nat,
      to_array (Transaction.from_bytes reg)
        (from_array Transaction.toBytes txs ++ r) = .ok (r, txs) :=
    fun r => to_array_rt _ _ _ hlen
      (fun x hx r' => transaction_from_bytes_rt reg x r' (htx x hx)) r
  unfold GenesisBlock.from_bytes Block.toBytes Block.block_header
  simp only [Block.transactions, List.append_assoc]
  have hz32 : (List.replicate 32 (0 : Nat)).length = 32 := by simp
  have hmr32 : (Transaction.calculate_merkle_root txs).length = 32 :=
    merkle_root_length txs hne
  have hp8t : (packI64 ts).length = 8 := packI64_length _
  have hp8n : (packI64 n).length = 8 := packI64_length _
  rw [load_raw_data_rt _ _ 32 (by omega) hz32]
  simp only [Bind.bind, Except.bind]
  simp only [ne_eq, not_true_eq_false, if_false]
  rw [load_raw_data_rt _ _ 32 (by omega) hmr32]
  simp only
  have hge1 : ¬ (packI64 ts ++ (packI64 n ++
      (from_array Transaction.toBytes txs ++ rest))).length < 8 := by
    simp only [List.length_append]
    omega
  rw [if_neg hge1, List.take_left' hp8t, List.drop_left' hp8t,
      unpackI64_packI64 hts1 hts2]
  have hge2 : ¬ (packI64 n ++
      (from_array Transaction.toBytes txs ++ rest)).length < 8 := by
    simp only [List.length_append]
    omega
  rw [if_neg hge2, List.take_left' hp8n, List.drop_left' hp8n,
      unpackI64_packI64 hn1 hn2, hTx rest]
  simp only [ne_eq, not_true_eq_false, if_false]
  unfold Block.mkChecked
  rw [if_pos hcc]

/-! ## Concrete entities used by witnesses and counterexamples -/

def cWallet : List Nat := List.replicate 526 0

/-- Address of the concrete wallet, written out to keep later evaluations
from re-hashing the 526 wallet bytes; cAddr_eq checks it against
walletAddress. -/
def cAddr : List Nat := [235, 110, 127, 52, 98, 180, 181, 94]

theorem cAddr_eq : cAddr = walletAddress cWallet := by rfl

/-- Registry holding exactly the concrete wallet under its own address. -/
def cReg : Registry := fun a => if a = cAddr then some cWallet else none

def cOutpoint : TransactionOutpoint := ⟨List.replicate 32 0, 0⟩

def cInput : TransactionInput := ⟨cOutpoint⟩

def cOutput : TransactionOutput := ⟨List.replicate 8 0, bitsTen⟩

def cSig : TransactionSignature := ⟨cWallet, List.replicate 32 0⟩

def cTx : Transaction := ⟨false, 0, [cInput], [cOutput], [cSig]⟩

def cCb : Transaction := ⟨true, 0, [], [cOutput], []⟩

def cGenesis : Block := .mk none [cCb] 0 0

/-! ## Claim C1 -/

/-- C1: for every valid entity (outpoint, input, output, signature,
transaction, block — genesis or chained), decoding the entity's canonical
byte serialization consumes the whole buffer and yields the empty remainder
together with the entity itself (hence an entity equal to the original by
canonical bytes): from_bytes is a left inverse of the canonical
serialization on well-formed entities. -/
theorem claim_c1_codec_round_trip (reg : Registry)
    (o : TransactionOutpoint) (i : TransactionInput) (u : TransactionOutput)
    (s : TransactionSignature) (t : Transaction) (prev : Block)
    (gtxs btxs : List Transaction) (gts gn bts bn : Int)
    (ho : WFOutpoint o) (hi : WFInput i) (hu : WFOutput u)
    (hs : WFSignature reg s) (ht : WFTransaction reg t)
    (hg : WFBlock reg (.mk none gtxs gts gn))
    (hb : WFBlock reg (.mk (some prev) btxs bts bn)) :
    TransactionOutpoint.from_bytes o.toBytes = .ok ([], o) ∧
    TransactionInput.from_bytes i.toBytes = .ok ([], i) ∧
    TransactionOutput.from_bytes u.toBytes = .ok ([], u) ∧
    TransactionSignature.from_bytes reg s.toBytes = .ok ([], s) ∧
    Transaction.from_bytes reg t.toBytes = .ok ([], t) ∧
    GenesisBlock.from_bytes reg (Block.mk none gtxs gts gn).toBytes =
      .ok ([], .mk none gtxs gts gn) ∧
    Block.from_bytes reg (Block.mk (some prev) btxs bts bn).toBytes prev =
      .ok ([], .mk (some prev) btxs bts bn) := by
  refine ⟨?_, ?_, ?_, ?_, ?_, ?_, ?_⟩
  · have hr := outpoint_from_bytes_rt o [] ho
    rwa [List.append_nil] at hr
  · have hr := input_from_bytes_rt i [] hi
    rwa [List.append_nil] at hr
  · have hr := output_from_bytes_rt u [] hu
    rwa [List.append_nil] at hr
  · have hr := signature_from_bytes_rt reg s [] hs
    rwa [List.append_nil] at hr
  · have hr := transaction_from_bytes_rt reg t [] ht
    rwa [List.append_nil] at hr
  · have hr := genesis_from_bytes_rt reg gtxs gts gn [] hg
    rwa [List.append_nil] at hr
  · have hr := block_from_bytes_rt reg prev btxs bts bn [] hb
    rwa [List.append_nil] at hr

/-- Witness for C1 at concrete well-formed entities. -/
theorem claim_c1_codec_round_trip_witness :
    (WFOutpoint cOutpoint ∧ WFInput cInput ∧ WFOutput cOutput ∧
     WFSignature cReg cSig ∧ WFTransaction cReg cTx ∧
     WFBlock cReg (.mk none [cCb] 0 0) ∧
     WFBlock cReg (.mk (some cGenesis) [cTx] 0 0)) ∧
    (TransactionOutpoint.from_bytes cOutpoint.toBytes = .ok ([], cOutpoint) ∧
     TransactionInput.from_bytes cInput.toBytes = .ok ([], cInput) ∧
     TransactionOutput.from_bytes cOutput.toBytes = .ok ([], cOutput) ∧
     TransactionSignature.from_bytes cReg cSig.toBytes = .ok ([], cSig) ∧
     Transaction.from_bytes cReg cTx.toBytes = .ok ([], cTx) ∧
     GenesisBlock.from_bytes cReg (Block.mk none [cCb] 0 0).toBytes =
       .ok ([], .mk none [cCb] 0 0) ∧
     Block.from_bytes cReg (Block.mk (some cGenesis) [cTx] 0 0).toBytes cGenesis =
       .ok ([], .mk (some cGenesis) [cTx] 0 0)) := by
  have h : WFOutpoint cOutpoint ∧ WFInput cInput ∧ WFOutput cOutput ∧
      WFSignature cReg cSig ∧ WFTransaction cReg cTx ∧
      WFBlock cReg (.mk none [cCb] 0 0) ∧
      WFBlock cReg (.mk (some cGenesis) [cTx] 0 0) := by decide
  exact ⟨h, claim_c1_codec_round_trip cReg cOutpoint cInput cOutput cSig cTx
    cGenesis [cCb] [cTx] 0 0 0 0 h.1 h.2.1 h.2.2.1 h.2.2.2.1 h.2.2.2.2.1
    h.2.2.2.2.2.1 h.2.2.2.2.2.2⟩

/-! ## Claim C3 -/

/-- C3: shallow proof validation returns true exactly when the block's id,
the SHA-256 digest of its header, is lexicographically strictly below the
32-byte target made of two zero bytes followed by thirty 0xFF bytes. -/
theorem claim_c3_valid_proof_shallow (b : Block) :
    Block.valid_proof b true = true ↔
      bytesLt (Block.id b) (List.replicate 2 0 ++ List.replicate 30 255) = true := by
  simp [Block.valid_proof, TARGET]

/-! ## Merkle fuel irrelevance (for claims C4 and C9) -/

theorem hashPairs_padEven_lt (l : List (List Nat)) (h : 1 < l.length) :
    (hashPairs (padEven l)).length < l.length := by
  rw [hashPairs_len, padEven_len]
  split <;> omega

theorem merkleLoop_nil (f : Nat) : merkleLoop f ([] : List (List Nat)) = [] := by
  cases f <;> simp [merkleLoop]

theorem merkleLoop_fuel_irrel :
    ∀ (f₁ f₂ : Nat) (l : List (List Nat)), l.length ≤ f₁ → l.length ≤ f₂ →
      merkleLoop f₁ l = merkleLoop f₂ l := by
  intro f₁
  induction f₁ with
  | zero =>
    intro f₂ l h₁ h₂
    have : l = [] := by
      cases l with
      | nil => rfl
      | cons a t => simp at h₁
    subst this
    rw [merkleLoop_nil, merkleLoop_nil]
  | succ f ih =>
    intro f₂ l h₁ h₂
    cases f₂ with
    | zero =>
      have : l = [] := by
        cases l with
        | nil => rfl
        | cons a t => simp at h₂
      subst this
      rw [merkleLoop_nil, merkleLoop_nil]
    | succ f₂ =>
      by_cases hl : 1 < l.length
      · rw [merkleLoop, merkleLoop, if_pos hl, if_pos hl]
        have hlt := hashPairs_padEven_lt l hl
        exact ih f₂ _ (by omega) (by omega)
      · rw [merkleLoop, merkleLoop, if_neg hl, if_neg hl]

theorem merkle_root_step (l : List (List Nat)) (h : 1 < l.length) :
    HashHelper.calculate_merkle_root l =
      HashHelper.calculate_merkle_root (hashPairs (padEven l)) := by
  unfold HashHelper.calculate_merkle_root
  obtain ⟨m, hm⟩ : ∃ m, l.length = m + 1 := ⟨l.length - 1, by omega⟩
  rw [hm, merkleLoop, if_pos h]
  have hlt := hashPairs_padEven_lt l h
  rw [merkleLoop_fuel_irrel m (hashPairs (padEven l)).length (hashPairs (padEven l))
    (by omega) (le_refl _)]

theorem merkle_singleton (x : List Nat) : HashHelper.calculate_merkle_root [x] = x :=
  rfl

/-! ## Claim C4 -/

/-- C4: on a non-empty leaf sequence, both merkle implementations return the
same root; the computation takes a singleton level to its unique node, and a
level with more than one node to the computation on the next level obtained
by appending one empty byte string when the level is odd and hashing
consecutive pairs with SHA-256 of the concatenation; being a plain function
of the ordered leaf list, the result is deterministic. -/
theorem claim_c4_merkle_algorithm (leaves : List (List Nat)) (h : leaves ≠ []) :
    bytetools.calculate_merkle_root leaves =
      .ok (HashHelper.calculate_merkle_root leaves) ∧
    (∀ x : List Nat, HashHelper.calculate_merkle_root [x] = x) ∧
    (∀ l : List (List Nat), 1 < l.length →
      HashHelper.calculate_merkle_root l =
        HashHelper.calculate_merkle_root (hashPairs (padEven l))) ∧
    (∀ l : List (List Nat), l.length % 2 ≠ 0 → padEven l = l ++ [[]]) ∧
    (∀ l : List (List Nat), l.length % 2 = 0 → padEven l = l) ∧
    (∀ a b : List Nat, ∀ rest : List (List Nat),
      hashPairs (a :: b :: rest) = sha256 (a ++ b) :: hashPairs rest) := by
  refine ⟨?_, merkle_singleton, merkle_root_step, ?_, ?_, ?_⟩
  · have hpos : 0 < leaves.length := List.length_pos.mpr h
    simp [bytetools.calculate_merkle_root, HashHelper.calculate_merkle_root, hpos]
  · intro l hodd
    simp [padEven, hodd]
  · intro l heven
    simp [padEven, heven]
  · intro a b rest
    rfl

/-- Witness for C4 at a concrete three-leaf input. -/
theorem claim_c4_merkle_algorithm_witness :
    ([[1], [2], [3]] : List (List Nat)) ≠ [] ∧
    (bytetools.calculate_merkle_root [[1], [2], [3]] =
      .ok (HashHelper.calculate_merkle_root [[1], [2], [3]]) ∧
    (∀ x : List Nat, HashHelper.calculate_merkle_root [x] = x) ∧
    (∀ l : List (List Nat), 1 < l.length →
      HashHelper.calculate_merkle_root l =
        HashHelper.calculate_merkle_root (hashPairs (padEven l))) ∧
    (∀ l : List (List Nat), l.length % 2 ≠ 0 → padEven l = l ++ [[]]) ∧
    (∀ l : List (List Nat), l.length % 2 = 0 → padEven l = l) ∧
    (∀ a b : List Nat, ∀ rest : List (List Nat),
      hashPairs (a :: b :: rest) = sha256 (a ++ b) :: hashPairs rest)) :=
  ⟨by decide, claim_c4_merkle_algorithm [[1], [2], [3]] (by decide)⟩

/-! ## Claim C9 -/

/-- Previous-id bytes a block header embeds: 32 zero bytes for a genesis
block, the predecessor's id otherwise. -/
def prevIdBytes : Option Block → List Nat
  | none => List.replicate 32 0
  | some p => Block.id p

/-- C9: the merkle root of a single leaf is the leaf itself, unhashed; hence
the header of a block with exactly one transaction embeds that
transaction's id verbatim as its merkle-root field. -/
theorem claim_c9_singleton_merkle (x : List Nat) (prev : Option Block)
    (t : Transaction) (ts n : Int) :
    HashHelper.calculate_merkle_root [x] = x ∧
    Block.block_header (.mk prev [t] ts n) =
      prevIdBytes prev ++ Transaction.id t ++ packI64 ts ++ packI64 n := by
  refine ⟨merkle_singleton x, ?_⟩
  cases prev with
  | none =>
    simp [Block.block_header, Transaction.calculate_merkle_root, prevIdBytes,
      merkle_singleton]
  | some p =>
    simp [Block.block_header, Transaction.calculate_merkle_root, prevIdBytes,
      merkle_singleton, Block.id]

/-! ## Claim C7 -/

/-- Transaction with the given signature appended (the effect of a
successful Transaction.sign). -/
def addSignature (t : Transaction) (s : TransactionSignature) : Transaction :=
  { t with signatures := t.signatures ++ [s] }

/-- C7: a wallet that has not yet signed a transaction signs successfully,
appending its signature to the signature sequence; a second signature whose
wallet equals the first then fails with AssertionError (InvalidArgument),
because the signature list already contains a signature by an equal
wallet. -/
theorem claim_c7_sign_at_most_once (t : Transaction) (s s' : TransactionSignature)
    (hfresh : ∀ ts ∈ t.signatures, walletEq ts.wallet s.wallet = false)
    (hsame : s'.wallet = s.wallet) :
    Transaction.sign t s = .ok (addSignature t s) ∧
    Transaction.sign (addSignature t s) s' = .error .invalidArgument := by
  constructor
  · unfold Transaction.sign
    rw [if_neg]
    · rfl
    · simp only [List.any_eq_true, not_exists, not_and]
      intro ts hts
      simp [hfresh ts hts]
  · unfold Transaction.sign
    rw [if_pos]
    simp [addSignature, List.any_append, walletEq, hsame]

/-- Witness for C7: an unsigned transaction, signed once and then again by
the same wallet. -/
theorem claim_c7_sign_at_most_once_witness :
    (∀ ts ∈ (⟨false, 0, [cInput], [cOutput], []⟩ : Transaction).signatures,
      walletEq ts.wallet cSig.wallet = false) ∧ cSig.wallet = cSig.wallet ∧
    (Transaction.sign ⟨false, 0, [cInput], [cOutput], []⟩ cSig =
      .ok (addSignature ⟨false, 0, [cInput], [cOutput], []⟩ cSig) ∧
    Transaction.sign (addSignature ⟨false, 0, [cInput], [cOutput], []⟩ cSig) cSig =
      .error .invalidArgument) :=
  ⟨by decide, rfl,
    claim_c7_sign_at_most_once ⟨false, 0, [cInput], [cOutput], []⟩ cSig cSig
      (by decide) rfl⟩

/-! ## Claim C10 -/

theorem consumeInputs_missing :
    ∀ (inputs : List TransactionInput)
      (m : List (TransactionOutpoint × TransactionOutput)) (acc : Int)
      (o : TransactionOutpoint),
      o ∈ inputs.map TransactionInput.outpoint → dictLookup o m = none →
      consumeInputs m inputs acc = none := by
  intro inputs
  induction inputs with
  | nil => intro m acc o ho _; simp at ho
  | cons i rest ih =>
    intro m acc o ho hnone
    simp only [List.map_cons, List.mem_cons] at ho
    unfold consumeInputs
    cases hl : dictLookup i.outpoint m with
    | none => rfl
    | some out =>
      rcases ho with he | hmem
      · subst he
        rw [hl] at hnone
        exact absurd hnone (by simp)
      · apply ih _ _ o hmem
        by_cases heq : o = i.outpoint
        · subst heq
          exact dictLookup_delete i.outpoint m
        · rw [dictLookup_delete_ne i.outpoint o m heq]
          exact hnone

theorem consumeInputs_dup :
    ∀ (inputs : List TransactionInput)
      (m : List (TransactionOutpoint × TransactionOutput)) (acc : Int),
      ¬ (inputs.map TransactionInput.outpoint).Nodup →
      consumeInputs m inputs acc = none := by
  intro inputs
  induction inputs with
  | nil => intro m acc h; simp at h
  | cons i rest ih =>
    intro m acc h
    simp only [List.map_cons, List.nodup_cons, not_and] at h
    unfold consumeInputs
    cases hl : dictLookup i.outpoint m with
    | none => rfl
    | some out =>
      by_cases hmem : i.outpoint ∈ rest.map TransactionInput.outpoint
      · exact consumeInputs_missing rest _ _ i.outpoint hmem
          (dictLookup_delete i.outpoint m)
      · exact ih _ _ (h hmem)

/-- C10: a non-coinbase transaction whose own input sequence references the
same outpoint more than once is judged invalid against every chain (and
against the empty chain): the validation loop deletes each outpoint from
the unspent map as it is consumed, so a repeated outpoint is not found on
its second use. -/
theorem claim_c10_intra_transaction_double_spend (t : Transaction)
    (latest_block : Option Block) (hnc : t.isCoinbase = false)
    (hdup : ¬ (t.inputs.map TransactionInput.outpoint).Nodup) :
    Transaction.valid t latest_block = .ok false := by
  unfold Transaction.valid
  rw [hnc]
  simp only [Bool.false_eq_true, if_false]
  rw [consumeInputs_dup t.inputs _ 0 hdup]

/-- Witness for C10: a transaction with two inputs spending one outpoint,
validated against the empty chain. -/
theorem claim_c10_intra_transaction_double_spend_witness :
    (⟨false, 0, [cInput, cInput], [], []⟩ : Transaction).isCoinbase = false ∧
    ¬ ((⟨false, 0, [cInput, cInput], [], []⟩ : Transaction).inputs.map
        TransactionInput.outpoint).Nodup ∧
    Transaction.valid ⟨false, 0, [cInput, cInput], [], []⟩ none = .ok false :=
  ⟨rfl, by decide,
    claim_c10_intra_transaction_double_spend ⟨false, 0, [cInput, cInput], [], []⟩
      none rfl (by decide)⟩

/-! ## Claim C5 -/

/-- Transaction byte string announcing one signature entry with no bytes
behind it: eight timestamp bytes, an empty input array, an empty output
array, and a signature array of declared length one. -/
def c5FailInput : List Nat := beBytes 8 0 ++ pack16 0 ++ pack16 0 ++ pack16 1

/-- C5 (code-bug evidence): decoding a structurally short buffer inside the
safe-load scope can escape with AssertionError (the InvalidArgument kind)
raised by the signature decoder's length assert, not with the single
ValueError kind (InvalidEncoding); the safe-load scope only converts
struct.error. -/
theorem claim_c5_short_buffer_wrong_error_kind :
    Transaction.from_bytes emptyRegistry c5FailInput = .error .invalidArgument := by
  rfl

/-! ## Claim C6 -/

/-- Concrete non-coinbase transaction used to parse a coinbase-free block. -/
def cTxNoCb : Transaction := ⟨false, 0, [cInput], [], []⟩

/-- Concrete genesis block holding only the non-coinbase transaction. -/
def cG6 : Block := .mk none [cTxNoCb] 0 0

/-- Concrete successor block holding only the non-coinbase transaction. -/
def cB6 : Block := .mk (some cG6) [cTxNoCb] 0 0

/-- Serialized form of the coinbase-free genesis block. -/
def c6Bytes : List Nat :=
  List.replicate 32 0 ++ Transaction.id cTxNoCb ++ packI64 0 ++ packI64 0 ++
  pack16 1 ++ cTxNoCb.toBytes

/-- C6 counterexample: a byte string parses successfully into a block that
contains no coinbase transaction at all, refuting the claim that every
block parsed from bytes has exactly one coinbase at index zero. -/
theorem claim_c6_counterexample :
    GenesisBlock.from_bytes emptyRegistry c6Bytes = .ok ([], cG6) ∧
    countCoinbase cG6.transactions = 0 := by
  constructor
  · rfl
  · rfl

theorem mkChecked_count (p : Option Block) (txs : List Transaction) (ts n : Int)
    (blk : Block) (h : Block.mkChecked p txs ts n = .ok blk) :
    countCoinbase blk.transactions ≤ 1 := by
  unfold Block.mkChecked at h
  split at h
  · simp only [Except.ok.injEq] at h
    subst h
    simpa [Block.transactions] using (by assumption : countCoinbase txs ≤ 1)
  · exact absurd h (by simp)

theorem block_from_bytes_coinbase_le (reg : Registry) (b : List Nat) (prev : Block)
    (rem : List Nat) (blk : Block)
    (h : Block.from_bytes reg b prev = .ok (rem, blk)) :
    countCoinbase blk.transactions ≤ 1 := by
  unfold Block.from_bytes at h
  simp only [Bind.bind, Except.bind] at h
  repeat' split at h
  all_goals try exact Except.noConfusion h
  all_goals
    simp only [Except.ok.injEq, Prod.mk.injEq] at h
    obtain ⟨h1, h2⟩ := h
    subst h2
    exact mkChecked_count _ _ _ _ _ (by assumption)

theorem genesis_from_bytes_coinbase_le (reg : Registry) (b : List Nat)
    (rem : List Nat) (blk : Block)
    (h : GenesisBlock.from_bytes reg b = .ok (rem, blk)) :
    countCoinbase blk.transactions ≤ 1 := by
  unfold GenesisBlock.from_bytes at h
  simp only [Bind.bind, Except.bind] at h
  repeat' split at h
  all_goals try exact Except.noConfusion h
  all_goals
    simp only [Except.ok.injEq, Prod.mk.injEq] at h
    obtain ⟨h1, h2⟩ := h
    subst h2
    exact mkChecked_count _ _ _ _ _ (by assumption)

/-- C6 (amended): every block successfully parsed from bytes (genesis or
chained) contains at most one coinbase transaction — but possibly none, and
at no particular position; constructing a block from a transaction sequence
with two or more coinbases fails with AssertionError (InvalidArgument). -/
theorem claim_c6_amended_coinbase_at_most_one (reg : Registry)
    (b bg rem remg : List Nat) (prev blk blkG : Block)
    (txs : List Transaction) (ts n : Int)
    (hparse : Block.from_bytes reg b prev = .ok (rem, blk))
    (hparseG : GenesisBlock.from_bytes reg bg = .ok (remg, blkG))
    (hmany : 2 ≤ countCoinbase txs) :
    countCoinbase blk.transactions ≤ 1 ∧
    countCoinbase blkG.transactions ≤ 1 ∧
    Block.mkChecked (some prev) txs ts n = .error .invalidArgument := by
  refine ⟨block_from_bytes_coinbase_le reg b prev rem blk hparse,
          genesis_from_bytes_coinbase_le reg bg remg blkG hparseG, ?_⟩
  unfold Block.mkChecked
  rw [if_neg (by omega)]

/-- Witness for the amended C6 at concrete parses and a two-coinbase
construction attempt. -/
theorem claim_c6_amended_coinbase_at_most_one_witness :
    (Block.from_bytes emptyRegistry cB6.toBytes cG6 = .ok ([], cB6) ∧
     GenesisBlock.from_bytes emptyRegistry c6Bytes = .ok ([], cG6) ∧
     2 ≤ countCoinbase [cCb, cCb]) ∧
    (countCoinbase cB6.transactions ≤ 1 ∧ countCoinbase cG6.transactions ≤ 1 ∧
     Block.mkChecked (some cG6) [cCb, cCb] 0 0 = .error .invalidArgument) := by
  have h1 : Block.from_bytes emptyRegistry cB6.toBytes cG6 = .ok ([], cB6) := by rfl
  have h2 : GenesisBlock.from_bytes emptyRegistry c6Bytes = .ok ([], cG6) := by rfl
  have h3 : 2 ≤ countCoinbase [cCb, cCb] := by decide
  exact ⟨⟨h1, h2, h3⟩, claim_c6_amended_coinbase_at_most_one emptyRegistry
    cB6.toBytes c6Bytes [] [] cG6 cB6 cG6 [cCb, cCb] 0 0 h1 h2 h3⟩

/-! ## Claim C8 -/

theorem findNonceGo_some_spec (blk : Block) :
    ∀ (fuel : Nat) (s n : Int), findNonceGo blk fuel s = some n →
      s ≤ n ∧ n < s + fuel ∧ Block.valid_proof (setNonce blk n) true = true ∧
      ∀ m, s ≤ m → m < n → Block.valid_proof (setNonce blk m) true = false := by
  intro fuel
  induction fuel with
  | zero =>
    intro s n h
    simp [findNonceGo] at h
  | succ f ih =>
    intro s n h
    unfold findNonceGo at h
    by_cases hp : Block.valid_proof (setNonce blk s) true = true
    · rw [if_pos hp] at h
      obtain rfl : s = n := by simpa using h
      exact ⟨le_refl _, by omega, hp, fun m h1 h2 => by omega⟩
    · rw [if_neg hp] at h
      obtain ⟨h1, h2, h3, h4⟩ := ih (s + 1) n h
      refine ⟨by omega, by omega, h3, ?_⟩
      intro m hm1 hm2
      by_cases hms : m = s
      · subst hms
        simpa [Bool.not_eq_true] using hp
      · exact h4 m (by omega) hm2

theorem findNonceGo_none_spec (blk : Block) :
    ∀ (fuel : Nat) (s : Int), findNonceGo blk fuel s = none →
      ∀ m, s ≤ m → m < s + fuel → Block.valid_proof (setNonce blk m) true = false := by
  intro fuel
  induction fuel with
  | zero =>
    intro s h m hm1 hm2
    omega
  | succ f ih =>
    intro s h m hm1 hm2
    unfold findNonceGo at h
    by_cases hp : Block.valid_proof (setNonce blk s) true = true
    · rw [if_pos hp] at h
      exact absurd h (by simp)
    · rw [if_neg hp] at h
      by_cases hms : m = s
      · subst hms
        simpa [Bool.not_eq_true] using hp
      · exact ih (s + 1) h m (by omega) (by omega)

/-- C8: on a deserializable frozen chain and a non-empty nonce range, the
mining worker returns the smallest nonce in the half-open range for which
setting the deserialized tip's nonce makes shallow proof validation hold,
or none when no nonce in the range satisfies the proof. -/
theorem claim_c8_worker_smallest_nonce (reg : Registry) (block_bytes : List Nat)
    (blk : Block) (start endE : Int)
    (hparse : GenesisBlock.from_bytes_chain reg block_bytes = .ok blk)
    (hne : block_bytes ≠ []) (hlt : start < endE) :
    BlockchainHelper.process_nonce_batch reg block_bytes start endE =
      .ok (findNonceGo blk (endE - start).toNat start) ∧
    (∀ n, findNonceGo blk (endE - start).toNat start = some n →
      start ≤ n ∧ n < endE ∧ Block.valid_proof (setNonce blk n) true = true ∧
      ∀ m, start ≤ m → m < n → Block.valid_proof (setNonce blk m) true = false) ∧
    (findNonceGo blk (endE - start).toNat start = none →
      ∀ m, start ≤ m → m < endE → Block.valid_proof (setNonce blk m) true = false) := by
  refine ⟨?_, ?_, ?_⟩
  · unfold BlockchainHelper.process_nonce_batch
    rw [if_neg hne, if_neg (by simpa using hlt), hparse]
    rfl
  · intro n h
    obtain ⟨h1, h2, h3, h4⟩ := findNonceGo_some_spec blk _ start n h
    exact ⟨h1, by omega, h3, h4⟩
  · intro h m hm1 hm2
    exact findNonceGo_none_spec blk _ start h m hm1 (by omega)

/-- Witness for C8 at a concrete serialized one-block chain and the range
from zero to one. -/
theorem claim_c8_worker_smallest_nonce_witness :
    (GenesisBlock.from_bytes_chain emptyRegistry c6Bytes = .ok cG6 ∧
     c6Bytes ≠ [] ∧ (0 : Int) < 1) ∧
    (BlockchainHelper.process_nonce_batch emptyRegistry c6Bytes 0 1 =
      .ok (findNonceGo cG6 ((1 : Int) - 0).toNat 0) ∧
    (∀ n, findNonceGo cG6 ((1 : Int) - 0).toNat 0 = some n →
      (0 : Int) ≤ n ∧ n < 1 ∧ Block.valid_proof (setNonce cG6 n) true = true ∧
      ∀ m, (0 : Int) ≤ m → m < n → Block.valid_proof (setNonce cG6 m) true = false) ∧
    (findNonceGo cG6 ((1 : Int) - 0).toNat 0 = none →
      ∀ m, (0 : Int) ≤ m → m < 1 →
        Block.valid_proof (setNonce cG6 m) true = false)) := by
  have h1 : GenesisBlock.from_bytes_chain emptyRegistry c6Bytes = .ok cG6 := by rfl
  have h2 : c6Bytes ≠ [] := by decide
  have h3 : (0 : Int) < 1 := by decide
  exact ⟨⟨h1, h2, h3⟩,
    claim_c8_worker_smallest_nonce emptyRegistry c6Bytes cG6 0 1 h1 h2 h3⟩

/-! ## Claim C2: lemmas about outpoint absence in the UTXO fold -/

theorem dictLookup_delete_preserve {α β : Type} [DecidableEq α] (k o : α)
    (m : List (α × β)) (h : dictLookup o m = none) :
    dictLookup o (dictDelete k m) = none := by
  by_cases he : o = k
  · subst he
    exact dictLookup_delete o m
  · rw [dictLookup_delete_ne k o m he]
    exact h

theorem deleteFold_preserve (inputs : List TransactionInput)
    (m : List (TransactionOutpoint × TransactionOutput)) (o : TransactionOutpoint)
    (h : dictLookup o m = none) :
    dictLookup o (inputs.foldl (fun m i => dictDelete i.outpoint m) m) = none := by
  induction inputs generalizing m with
  | nil => exact h
  | cons i rest ih =>
    exact ih _ (dictLookup_delete_preserve i.outpoint o m h)

theorem deleteFold_removes (inputs : List TransactionInput)
    (m : List (TransactionOutpoint × TransactionOutput)) (o : TransactionOutpoint)
    (h : o ∈ inputs.map TransactionInput.outpoint) :
    dictLookup o (inputs.foldl (fun m i => dictDelete i.outpoint m) m) = none := by
  induction inputs generalizing m with
  | nil => simp at h
  | cons i rest ih =>
    simp only [List.map_cons, List.mem_cons] at h
    rcases h with he | hmem
    · subst he
      exact deleteFold_preserve rest _ i.outpoint (dictLookup_delete i.outpoint m)
    · exact ih _ hmem

theorem insertFold_preserve (l : List (Nat × TransactionOutput)) (tid : List Nat)
    (o : TransactionOutpoint) (m : List (TransactionOutpoint × TransactionOutput))
    (hne : tid ≠ o.transaction_id) (h : dictLookup o m = none) :
    dictLookup o
      (l.foldl (fun m io => dictInsert ⟨tid, io.1⟩ io.2 m) m) = none := by
  induction l generalizing m with
  | nil => exact h
  | cons io rest ih =>
    apply ih
    rw [dictLookup_insert_ne ⟨tid, io.1⟩ o _ m]
    · exact h
    · intro hc
      apply hne
      rw [hc]

theorem utxoStep_preserve (m : List (TransactionOutpoint × TransactionOutput))
    (t : Transaction) (o : TransactionOutpoint)
    (hne : Transaction.id t ≠ o.transaction_id) (h : dictLookup o m = none) :
    dictLookup o (utxoStep m t) = none := by
  unfold utxoStep
  exact insertFold_preserve _ _ _ _ hne (deleteFold_preserve _ _ _ h)

theorem utxoStep_spender (m : List (TransactionOutpoint × TransactionOutput))
    (t : Transaction) (o : TransactionOutpoint)
    (hspend : o ∈ t.inputs.map TransactionInput.outpoint)
    (hne : Transaction.id t ≠ o.transaction_id) :
    dictLookup o (utxoStep m t) = none := by
  unfold utxoStep
  exact insertFold_preserve _ _ _ _ hne (deleteFold_removes _ _ _ hspend)

theorem utxoFold_preserve (l : List Transaction)
    (m : List (TransactionOutpoint × TransactionOutput)) (o : TransactionOutpoint)
    (hne : ∀ u ∈ l, Transaction.id u ≠ o.transaction_id)
    (h : dictLookup o m = none) :
    dictLookup o (l.foldl utxoStep m) = none := by
  induction l generalizing m with
  | nil => exact h
  | cons u rest ih =>
    exact ih _ (fun v hv => hne v (List.mem_cons_of_mem _ hv))
      (utxoStep_preserve m u o (hne u (List.mem_cons_self _ _)) h)

/-- An outpoint spent by a transaction of the chain and never referenced by
the id of that transaction or any later one is absent from the UTXO set. -/
theorem unspent_outpoints_absent (P : Block) (l1 l2 : List Transaction)
    (t' : Transaction) (o : TransactionOutpoint)
    (hsplit : P.expand_transactions.map Prod.snd = l1 ++ t' :: l2)
    (hspend : o ∈ t'.inputs.map TransactionInput.outpoint)
    (hnocreate : ∀ u ∈ t' :: l2, Transaction.id u ≠ o.transaction_id) :
    dictLookup o P.unspent_outpoints = none := by
  unfold Block.unspent_outpoints
  rw [hsplit, List.foldl_append, List.foldl_cons]
  exact utxoFold_preserve l2 _ o
    (fun u hu => hnocreate u (List.mem_cons_of_mem _ hu))
    (utxoStep_spender _ t' o hspend (hnocreate t' (List.mem_cons_self _ _)))

/-- A non-coinbase transaction with an input whose outpoint is absent from
the predecessor chain's UTXO set is judged invalid. -/
theorem valid_false_of_absent (t : Transaction) (P : Block)
    (o : TransactionOutpoint) (hnc : t.isCoinbase = false)
    (hin : o ∈ t.inputs.map TransactionInput.outpoint)
    (habsent : dictLookup o P.unspent_outpoints = none) :
    Transaction.valid t (some P) = .ok false := by
  unfold Transaction.valid
  rw [hnc]
  simp only [Bool.false_eq_true, if_false]
  rw [consumeInputs_missing t.inputs _ 0 o hin habsent]

theorem anyInvalid_of_member (txs : List Transaction) (prev : Option Block)
    (t : Transaction) (ht : t ∈ txs)
    (hv : Transaction.valid t prev = .ok false) :
    anyInvalid txs prev ≠ .ok false := by
  induction txs with
  | nil => simp at ht
  | cons u rest ih =>
    unfold anyInvalid
    simp only [Bind.bind, Except.bind]
    rcases List.mem_cons.mp ht with he | hmem
    · subst he
      rw [hv]
      simp
    · cases hu : Transaction.valid u prev with
      | error e => simp
      | ok v =>
        cases v with
        | true =>
          simpa using ih hmem
        | false => simp

theorem checkBlocksTx_of_member (bs : List Block) (y : Block) (hy : y ∈ bs)
    (hbad : anyInvalid y.transactions y.previous_block ≠ .ok false) :
    checkBlocksTx bs ≠ .ok true := by
  induction bs with
  | nil => simp at hy
  | cons b rest ih =>
    unfold checkBlocksTx
    simp only [Bind.bind, Except.bind]
    rcases List.mem_cons.mp hy with he | hmem
    · subst he
      cases hb : anyInvalid y.transactions y.previous_block with
      | error e => simp
      | ok v =>
        cases v with
        | true => simp
        | false => exact absurd hb hbad
    · cases hb : anyInvalid b.transactions b.previous_block with
      | error e => simp
      | ok v =>
        cases v with
        | true => simp
        | false => simpa using ih hmem

/-- C2 (amended): deep transaction validity fails for a chain in which a
transaction of some block spends an outpoint that a transaction of the
prior chain already spent — provided no transaction at or after the
earlier spender in the flattened prior chain carries the outpoint's
transaction id (which would re-create the outpoint).  Within a single
block the double spend is not detected: each transaction is validated
against the UTXO of prior blocks only (see the counterexample). -/
theorem claim_c2_cross_block_double_spend (tip y P : Block) (t t' : Transaction)
    (l1 l2 : List Transaction) (o : TransactionOutpoint)
    (hy : y ∈ tip.expand_chain_values)
    (hprev : y.previous_block = some P)
    (ht : t ∈ y.transactions) (hnc : t.isCoinbase = false)
    (hin : o ∈ t.inputs.map TransactionInput.outpoint)
    (hsplit : P.expand_transactions.map Prod.snd = l1 ++ t' :: l2)
    (hspend : o ∈ t'.inputs.map TransactionInput.outpoint)
    (hnocreate : ∀ u ∈ t' :: l2, Transaction.id u ≠ o.transaction_id) :
    Block.valid_transactions tip false ≠ .ok true := by
  have habs := unspent_outpoints_absent P l1 l2 t' o hsplit hspend hnocreate
  have hvf := valid_false_of_absent t P o hnc hin habs
  have hbad : anyInvalid y.transactions y.previous_block ≠ .ok false := by
    rw [hprev]
    exact anyInvalid_of_member _ _ t ht hvf
  unfold Block.valid_transactions
  simp only [Bool.false_eq_true, if_false]
  exact checkBlocksTx_of_member _ y hy hbad

/-! ## Claim C2: concrete chains -/

/-- Coinbase paying the concrete wallet's address. -/
def dCb0 : Transaction := ⟨true, 0, [], [⟨cAddr, bitsTen⟩], []⟩

/-- Genesis block holding only that coinbase. -/
def dG : Block := .mk none [dCb0] 0 0

/-- The coinbase's single outpoint. -/
def dO : TransactionOutpoint := ⟨dCb0.id, 0⟩

/-- First spender of the coinbase outpoint, signed by the owning wallet. -/
def dT1 : Transaction :=
  ⟨false, 1, [⟨dO⟩], [⟨List.replicate 8 1, bitsTen⟩], [cSig]⟩

/-- Second spender of the same outpoint, to a different recipient. -/
def dT2 : Transaction :=
  ⟨false, 2, [⟨dO⟩], [⟨List.replicate 8 2, bitsTen⟩], [cSig]⟩

/-- Fresh coinbase for the candidate block. -/
def dCb2 : Transaction := ⟨true, 3, [], [⟨List.replicate 8 3, bitsTen⟩], []⟩

/-- Candidate block containing both spenders of the one outpoint. -/
def dB2 : Block := .mk (some dG) [dCb2, dT1, dT2] 4 0

/-- C2 counterexample: a chain whose tip block contains two distinct
transactions each spending the same outpoint nevertheless passes deep
transaction validity — each transaction is validated against the UTXO of
the prior blocks only, so the within-block double spend is not detected. -/
theorem claim_c2_within_block_counterexample :
    dT1 ∈ dB2.transactions ∧ dT2 ∈ dB2.transactions ∧ dT1 ≠ dT2 ∧
    dT1.inputs.map TransactionInput.outpoint =
      dT2.inputs.map TransactionInput.outpoint ∧
    Block.valid_transactions dB2 false = .ok true := by
  refine ⟨by decide, by decide, by decide, rfl, ?_⟩
  rfl

/-- Coinbase used by the cross-block witness chain. -/
def eCb : Transaction := ⟨true, 0, [], [⟨List.replicate 8 0, bitsTen⟩], []⟩

/-- The witness coinbase's outpoint. -/
def eO : TransactionOutpoint := ⟨eCb.id, 0⟩

/-- Earlier spender, placed in the genesis block. -/
def eT1 : Transaction := ⟨false, 1, [⟨eO⟩], [⟨List.replicate 8 1, bitsTen⟩], []⟩

/-- Later spender of the same outpoint, placed in the tip block. -/
def eT2 : Transaction := ⟨false, 2, [⟨eO⟩], [⟨List.replicate 8 2, bitsTen⟩], []⟩

/-- Genesis block with the coinbase and the earlier spender. -/
def eG : Block := .mk none [eCb, eT1] 0 0

/-- Tip block with the later spender. -/
def eTip : Block := .mk (some eG) [eT2] 1 0

/-- Witness for the amended C2: a concrete two-block chain with the same
outpoint spent in both blocks fails deep transaction validity. -/
theorem claim_c2_cross_block_double_spend_witness :
    (eTip ∈ eTip.expand_chain_values ∧
     eTip.previous_block = some eG ∧
     eT2 ∈ eTip.transactions ∧ eT2.isCoinbase = false ∧
     eO ∈ eT2.inputs.map TransactionInput.outpoint ∧
     eG.expand_transactions.map Prod.snd = [eCb] ++ eT1 :: [] ∧
     eO ∈ eT1.inputs.map TransactionInput.outpoint ∧
     (∀ u ∈ eT1 :: ([] : List Transaction),
       Transaction.id u ≠ eO.transaction_id)) ∧
    Block.valid_transactions eTip false ≠ .ok true := by
  have hchain : eTip.expand_chain_values = [eG, eTip] := by rfl
  have hy : eTip ∈ eTip.expand_chain_values := by
    rw [hchain]
    simp
  have hsplit : eG.expand_transactions.map Prod.snd = [eCb] ++ eT1 :: [] := by rfl
  have hnoc : ∀ u ∈ eT1 :: ([] : List Transaction),
      Transaction.id u ≠ eO.transaction_id := by decide
  have ht : eT2 ∈ eTip.transactions := by decide
  have hin : eO ∈ eT2.inputs.map TransactionInput.outpoint := by decide
  have hsp : eO ∈ eT1.inputs.map TransactionInput.outpoint := by decide
  exact ⟨⟨hy, rfl, ht, rfl, hin, hsplit, hsp, hnoc⟩,
    claim_c2_cross_block_double_spend eTip eTip eG eT2 eT1 [eCb] [] eO
      hy rfl ht rfl hin hsplit hsp hnoc⟩

end Chain
